import Mathlib

/-!
Verification of the pyte pagination core (src/pyte/layout.py, flowable.py,
document.py) via a shallow embedding. Dimensions are modelled as exact
integers; raising an exception is modelled as a Boolean raised-flag paired
with the state the Python object holds at the moment the exception
propagates (Python mutates attributes in place before raising, so the
mutated state survives the raise).
-/

/-- State of a bounded `Container` (layout.py, class `Container`):
`offset` is `_flowable_offset`, `height` is `self.height`.
`canvasHeight` is `float(self.canvas.height)` used by the `cursor`
property; the backend canvas is created once with a fixed rectangle
(`parent.canvas.new(0, 0, float(self.width), 0)`), so its height is a
per-container constant here. -/
structure ContainerState where
  offset : Int
  height : Int
  canvasHeight : Int
  deriving DecidableEq, Repr

/-- `ContainerBase.cursor` (layout.py lines 94-98):
`float(self.canvas.height) - self._flowable_offset`. -/
def ContainerState.cursor (c : ContainerState) : Int :=
  c.canvasHeight - c.offset

/-- `Container.advance` (layout.py lines 177-182): the offset is
incremented first; `EndOfContainer` (the Boolean) is raised afterwards if
the new offset exceeds the height. The mutated state is kept either way. -/
def Container.advance (c : ContainerState) (h : Int) : ContainerState × Bool :=
  let c1 : ContainerState := { c with offset := c.offset + h }
  if c.height < c1.offset then (c1, true) else (c1, false)

/-- State of an `ExpandingContainer` (layout.py lines 185-199):
`height` starts at 0 and grows; `max_height` is the optional cap. -/
structure ExpandingContainer where
  offset : Int
  height : Int
  max_height : Option Int
  canvasHeight : Int
  deriving DecidableEq, Repr

/-- `ExpandingContainer.expand` (layout.py lines 198-199). -/
def ExpandingContainer.expand (c : ExpandingContainer) (h : Int) : ExpandingContainer :=
  { c with height := c.height + h }

/-- `ExpandingContainer.advance` (layout.py lines 192-196): increment the
offset, raise if a cap is set and the new offset exceeds it (skipping
`expand`), otherwise grow the height by `h`. -/
def ExpandingContainer.advance (c : ExpandingContainer) (h : Int) :
    ExpandingContainer × Bool :=
  let c1 : ExpandingContainer := { c with offset := c.offset + h }
  match c.max_height with
  | some m => if m < c1.offset then (c1, true) else (c1.expand h, false)
  | none => (c1.expand h, false)

/-- Sequential calls `advance(h1), advance(h2), ...` on a bounded
container, stopping at the first raised `EndOfContainer`; returns the
final container state and the index of the raising call, if any. -/
def advanceSeq (c : ContainerState) : List Int → ContainerState × Option Nat
  | [] => (c, none)
  | h :: t =>
    let a := Container.advance c h
    if a.2 then (a.1, some 0)
    else
      let r := advanceSeq a.1 t
      (r.1, r.2.map Nat.succ)

/-- Sequential calls on an `ExpandingContainer`, stopping at the first
raise. -/
def advanceSeqE (c : ExpandingContainer) : List Int → ExpandingContainer × Option Nat
  | [] => (c, none)
  | h :: t =>
    let a := ExpandingContainer.advance c h
    if a.2 then (a.1, some 0)
    else
      let r := advanceSeqE a.1 t
      (r.1, r.2.map Nat.succ)

/-- Sum of the first `k` heights. -/
def sumTake (hs : List Int) (k : Nat) : Int :=
  (hs.take k).sum

/-- A `Flowable` (flowable.py, class `Flowable` with `FlowableStyle`):
`space_above` and `space_below` come from the style; `resume` is the
instance flag initialised to `False`. `content` models the concrete
subclass body of `Flowable.render`. Modelled from the spec: concrete
flowable subclasses are outside the core sources; the spec says content
rendering consumes vertical space and "may itself signal mid-content
Overflow", so content is a list of line heights advanced in order. -/
structure Flowable where
  space_above : Int
  space_below : Int
  content : List Int
  resume : Bool
  deriving DecidableEq, Repr

/-- Content rendering: advance the cursor by each line height in order,
propagating the first raise together with the mutated container state. -/
def renderContent (c : ContainerState) : List Int → ContainerState × Bool
  | [] => (c, false)
  | h :: t =>
    let a := Container.advance c h
    if a.2 then (a.1, true) else renderContent a.1 t

/-- The shared suffix of `Flowable.flow` (flowable.py lines 62-68):
`self.render(container)` (a content raise propagates), then
`self.resume = False`, then the `space_below` advance whose raise is
swallowed (`except EndOfContainer: pass`, the offset it added being
kept), and finally the return value `container.cursor - start_offset`,
with `start` the container as it was when `flow` read `start_offset`. -/
def flowTail (f : Flowable) (start : ContainerState) (c : ContainerState) :
    Flowable × ContainerState × Option Int :=
  let r := renderContent c f.content
  if r.2 then (f, r.1, none)
  else
    let a := Container.advance r.1 f.space_below
    ({ f with resume := false }, a.1, some (a.1.cursor - start.cursor))

/-- `Flowable.flow` (flowable.py lines 50-68). Result: the flowable with
its mutated `resume` flag, the mutated container, and `some v` with the
returned value on normal return, or `none` when `EndOfContainer`
propagates out of `flow`. A fresh flowable sets `resume = True` and only
then advances by `space_above` (so the raise leaves `resume` set); a
resumed one skips the `space_above` advance. -/
def Flowable.flow (f : Flowable) (c : ContainerState) :
    Flowable × ContainerState × Option Int :=
  if f.resume then flowTail f c c
  else
    let f1 : Flowable := { f with resume := true }
    let a0 := Container.advance c f.space_above
    if a0.2 then (f1, a0.1, none)
    else flowTail f1 c a0.1

/-- The inner loop of `Chain.render` (layout.py lines 260-263): flow the
remaining flowables into one container in order, incrementing the
flowable index after each success; on a raise, stop, keeping the failed
flowable (with its mutated `resume` flag) at the front of the remaining
list. Returns (container, remaining flowables, raised). -/
def flowMany (c : ContainerState) : List Flowable → ContainerState × List Flowable × Bool
  | [] => (c, [], false)
  | f :: rest =>
    let r := Flowable.flow f c
    match r.2.2 with
    | none => (r.2.1, r.1 :: rest, true)
    | some _ => flowMany r.2.1 rest

/-- `Chain.render` (layout.py lines 255-266): walk the containers from
`_container_index`; on `EndOfContainer` from a flow, raise
`EndOfPage(self)` only when the current container is the last one,
otherwise continue with the next container. Returns the remaining
flowables and whether `EndOfPage` was raised. -/
def Chain.render (fs : List Flowable) : List ContainerState → List Flowable × Bool
  | [] => (fs, false)
  | c :: rest =>
    let m := flowMany c fs
    if m.2.2 then
      if rest.isEmpty then (m.2.1, true)
      else Chain.render m.2.1 rest
    else Chain.render m.2.1 rest

/-- The flowables still unconsumed after the chain has worked through a
given container list, with every `EndOfContainer` caught (the state the
chain is in when it moves past those containers). -/
def chainConsume (fs : List Flowable) : List ContainerState → List Flowable
  | [] => fs
  | c :: rest => chainConsume (flowMany c fs).2.1 rest

/-- `page_references`, a mapping compared by value between passes
(document.py). -/
abbrev RefMap := List (Nat × Nat)

/-- `Document.has_converged` (document.py lines 113-115): page count and
reference map identical to the previous pass. The previous page count is
an `Int` because the cold-start value is `-1`. -/
def has_converged (pages : Int) (refs : RefMap) (prevPages : Int) (prevRefs : RefMap) : Bool :=
  decide (pages = prevPages ∧ refs = prevRefs)

/-- The `while not self.has_converged()` loop of `Document.render`
(document.py lines 117-130). `passFn i` abstracts the i-th call of
`render_loop` (whose page construction is delegated to the external
`setup` and `add_to_chain` collaborators): it yields that pass's page
count and reference map. `fuel` bounds the simulation only: `none` means
the loop is still running after `fuel` passes. The result `some n` means
the loop converged and left after `n` passes in total. -/
def renderPasses (passFn : Nat → Nat × RefMap) :
    Int → RefMap → Nat → Nat → Option Nat
  | _, _, _, 0 => none
  | prevPages, prevRefs, i, fuel + 1 =>
    let pr := passFn i
    if has_converged (Int.ofNat pr.1) pr.2 prevPages prevRefs then some (i + 1)
    else renderPasses passFn (Int.ofNat pr.1) pr.2 (i + 1) fuel

/-- `Document.render` (document.py lines 117-130): `load_cache` seeds the
previous-pass pair, `(-1, empty)` on a cold start (IOError path of
`load_cache`, lines 96-100) or the cached pair on a warm start (lines
91-94), then passes repeat until `has_converged`. -/
def Document.render (passFn : Nat → Nat × RefMap) (cache : Option (Nat × RefMap))
    (fuel : Nat) : Option Nat :=
  match cache with
  | none => renderPasses passFn (-1) [] 0 fuel
  | some pr => renderPasses passFn (Int.ofNat pr.1) pr.2 0 fuel

/-- Result of one `render()` call (layout.py lines 106-124): normal
return, `EndOfContainer` propagating, or `EndOfPage` propagating. -/
inductive Outcome where
  | ok
  | eoc
  | eop
  deriving DecidableEq, Repr

mutual
/-- A container tree for `ContainerBase.render`: own geometry state,
directly assigned flowables, an optional chain (its flowable and
container sequences), and child containers. -/
inductive RTree where
  | node : ContainerState → List Flowable →
      Option (List Flowable × List ContainerState) → RTreeList → RTree
/-- A list of child containers (spelled out so the render functions are
structurally recursive). -/
inductive RTreeList where
  | nil : RTreeList
  | cons : RTree → RTreeList → RTreeList
end

/-- Length of a child list. -/
def RTreeList.length : RTreeList → Nat
  | .nil => 0
  | .cons _ rest => rest.length + 1

/-- Append of child lists. -/
def RTreeList.append : RTreeList → RTreeList → RTreeList
  | .nil, ys => ys
  | .cons t rest, ys => .cons t (rest.append ys)

mutual
/-- `ContainerBase.render` (layout.py lines 106-124). The loop over
`self.children` catches only `EndOfPage`, remembering it in
`end_of_page`; any other `EndOfContainer` propagates out of the loop at
once. Then: if the container owns flowables, each is flowed into it
(raises propagate); otherwise, if it is bound to a chain, the chain is
rendered with `EndOfPage` caught into `end_of_page`. Finally a remembered
`end_of_page` is re-raised. Returns the outcome together with the number
of children whose `render` was invoked. -/
def ContainerBase.render : RTree → Outcome × Nat
  | RTree.node c fls chain kids =>
    let k := ContainerBase.renderChildren kids
    if k.2.1 then (Outcome.eoc, k.1)
    else
      if fls.isEmpty then
        match chain with
        | some ch =>
          if (Chain.render ch.1 ch.2).2 then (Outcome.eop, k.1)
          else if k.2.2 then (Outcome.eop, k.1) else (Outcome.ok, k.1)
        | none => if k.2.2 then (Outcome.eop, k.1) else (Outcome.ok, k.1)
      else
        if (flowMany c fls).2.2 then (Outcome.eoc, k.1)
        else if k.2.2 then (Outcome.eop, k.1) else (Outcome.ok, k.1)

/-- The `for child in self.children` loop of `ContainerBase.render`:
returns (children attempted, aborted by an escaping `EndOfContainer`,
`EndOfPage` collected). -/
def ContainerBase.renderChildren : RTreeList → Nat × Bool × Bool
  | RTreeList.nil => (0, false, false)
  | RTreeList.cons t rest =>
    let r := ContainerBase.render t
    if r.1 = Outcome.eoc then (1, true, false)
    else
      let q := ContainerBase.renderChildren rest
      (q.1 + 1, q.2.1, q.2.2 || decide (r.1 = Outcome.eop))
end

/-- True when no child in the list renders to an escaping
`EndOfContainer`. -/
def childrenNoEoc : RTreeList → Bool
  | .nil => true
  | .cons t rest =>
    decide (¬ (ContainerBase.render t).1 = Outcome.eoc) && childrenNoEoc rest

/-- True when some child in the list renders to `EndOfPage`. -/
def childrenAnyEop : RTreeList → Bool
  | .nil => false
  | .cons t rest =>
    decide ((ContainerBase.render t).1 = Outcome.eop) || childrenAnyEop rest

/-- Resolution of one axis in `ContainerBase.__init__` (layout.py lines
62-68) and, with the same text, the vertical axis of
`Container.__init__` (lines 169-175):
`left = 0 if (right and width) is None else (right - width)` when `left`
is `None` (every supplied dimension object being truthy), then
`width = (parent.width - left) if right is None else (right - left)`
when `width` is `None`, and finally `right = left + width`
unconditionally. Returns (left, width, right). -/
def resolveAxis (parentExtent : Int) (low ext high : Option Int) : Int × Int × Int :=
  let l : Int :=
    match low with
    | some v => v
    | none => if high.isNone || ext.isNone then 0 else high.getD 0 - ext.getD 0
  let w : Int :=
    match ext with
    | some v => v
    | none =>
      match high with
      | none => parentExtent - l
      | some r => r - l
  (l, w, l + w)

/-- `Container.__init__` (layout.py lines 150-175): the horizontal axis
via `ContainerBase.__init__` and the vertical axis by the symmetric
rule. Returns ((left, width, right), (top, height, bottom)). -/
def Container.init (parentWidth parentHeight : Int)
    (left width right top height bottom : Option Int) :
    (Int × Int × Int) × (Int × Int × Int) :=
  (resolveAxis parentWidth left width right,
   resolveAxis parentHeight top height bottom)

/-! Helper lemmas. -/

theorem sumTake_zero (hs : List Int) : sumTake hs 0 = 0 := rfl

theorem sumTake_cons_succ (h : Int) (t : List Int) (k : Nat) :
    sumTake (h :: t) (k + 1) = h + sumTake t k := by
  simp [sumTake]

theorem Container.advance_fst (c : ContainerState) (h : Int) :
    (Container.advance c h).1 = { c with offset := c.offset + h } := by
  simp only [Container.advance]
  split <;> rfl

theorem Container.advance_snd (c : ContainerState) (h : Int) :
    (Container.advance c h).2 = decide (c.height < c.offset + h) := by
  simp only [Container.advance]
  split <;> simp_all

theorem advanceSeq_cons_raise (o H ch h : Int) (t : List Int)
    (hr : H < o + h) :
    advanceSeq ⟨o, H, ch⟩ (h :: t) = (⟨o + h, H, ch⟩, some 0) := by
  simp [advanceSeq, Container.advance, hr]

theorem advanceSeq_cons_ok (o H ch h : Int) (t : List Int)
    (hr : ¬ H < o + h) :
    advanceSeq ⟨o, H, ch⟩ (h :: t) =
      ((advanceSeq ⟨o + h, H, ch⟩ t).1,
       (advanceSeq ⟨o + h, H, ch⟩ t).2.map Nat.succ) := by
  simp [advanceSeq, Container.advance, hr]

theorem advanceSeq_none_iff (H ch : Int) :
    ∀ (hs : List Int) (o : Int),
      (advanceSeq ⟨o, H, ch⟩ hs).2 = none ↔
        ∀ j < hs.length, o + sumTake hs (j + 1) ≤ H := by
  intro hs
  induction hs with
  | nil => intro o; simp [advanceSeq]
  | cons h t ih =>
    intro o
    by_cases hc : H < o + h
    · rw [advanceSeq_cons_raise o H ch h t hc]
      simp only [List.length_cons]
      constructor
      · intro hfalse; exact absurd hfalse (by simp)
      · intro hall
        have h0 := hall 0 (by omega)
        rw [sumTake_cons_succ, sumTake_zero] at h0
        omega
    · rw [advanceSeq_cons_ok o H ch h t hc]
      simp only [Option.map_eq_none', List.length_cons]
      rw [ih (o + h)]
      constructor
      · intro hall j hj
        cases j with
        | zero =>
          rw [sumTake_cons_succ, sumTake_zero]
          omega
        | succ j1 =>
          have := hall j1 (by omega)
          rw [sumTake_cons_succ]
          omega
      · intro hall j hj
        have := hall (j + 1) (by omega)
        rw [sumTake_cons_succ] at this
        omega

theorem advanceSeq_some_iff (H ch : Int) :
    ∀ (hs : List Int) (o : Int) (i : Nat),
      (advanceSeq ⟨o, H, ch⟩ hs).2 = some i ↔
        i < hs.length ∧ H < o + sumTake hs (i + 1) ∧
          ∀ j < i, o + sumTake hs (j + 1) ≤ H := by
  intro hs
  induction hs with
  | nil => intro o i; simp [advanceSeq]
  | cons h t ih =>
    intro o i
    by_cases hc : H < o + h
    · rw [advanceSeq_cons_raise o H ch h t hc]
      cases i with
      | zero =>
        simp only [List.length_cons, Option.some.injEq]
        constructor
        · intro _
          refine ⟨by omega, ?_, by omega⟩
          rw [sumTake_cons_succ, sumTake_zero]
          omega
        · intro _; trivial
      | succ i1 =>
        simp only [Option.some.injEq, List.length_cons]
        constructor
        · intro hz; omega
        · rintro ⟨_, _, hall⟩
          have h0 := hall 0 (by omega)
          rw [sumTake_cons_succ, sumTake_zero] at h0
          omega
    · rw [advanceSeq_cons_ok o H ch h t hc]
      simp only [List.length_cons]
      rcases hx : (advanceSeq ⟨o + h, H, ch⟩ t).2 with _ | k
      · simp only [hx, Option.map_none']
        constructor
        · intro hmap; exact absurd hmap (by simp)
        · rintro ⟨hlen, hlt, hall⟩
          exfalso
          have hinner := (advanceSeq_none_iff H ch t (o + h)).mp hx
          cases i with
          | zero =>
            rw [sumTake_cons_succ, sumTake_zero] at hlt
            omega
          | succ i1 =>
            have h2 := hinner i1 (by omega)
            rw [sumTake_cons_succ] at hlt
            omega
      · simp only [hx, Option.map_some', Option.some.injEq]
        obtain ⟨hklen, hklt, hkall⟩ := (ih (o + h) k).mp hx
        constructor
        · intro hik
          subst hik
          refine ⟨by omega, ?_, ?_⟩
          · rw [sumTake_cons_succ]; omega
          · intro j hj
            cases j with
            | zero =>
              rw [sumTake_cons_succ, sumTake_zero]
              omega
            | succ j1 =>
              have := hkall j1 (by omega)
              rw [sumTake_cons_succ]
              omega
        · rintro ⟨hlen, hlt, hall⟩
          cases i with
          | zero =>
            exfalso
            rw [sumTake_cons_succ, sumTake_zero] at hlt
            omega
          | succ i1 =>
            have hi : (advanceSeq ⟨o + h, H, ch⟩ t).2 = some i1 := by
              rw [ih (o + h) i1]
              refine ⟨by omega, ?_, ?_⟩
              · rw [sumTake_cons_succ] at hlt; omega
              · intro j hj
                have := hall (j + 1) (by omega)
                rw [sumTake_cons_succ] at this
                omega
            rw [hx] at hi
            injection hi with hi
            omega

theorem advanceSeq_none_state (H ch : Int) :
    ∀ (hs : List Int) (o : Int),
      (advanceSeq ⟨o, H, ch⟩ hs).2 = none →
        (advanceSeq ⟨o, H, ch⟩ hs).1 = ⟨o + hs.sum, H, ch⟩ := by
  intro hs
  induction hs with
  | nil => intro o _; simp [advanceSeq]
  | cons h t ih =>
    intro o hnone
    by_cases hc : H < o + h
    · rw [advanceSeq_cons_raise o H ch h t hc] at hnone
      exact absurd hnone (by simp)
    · rw [advanceSeq_cons_ok o H ch h t hc] at hnone ⊢
      simp only [Option.map_eq_none'] at hnone
      rw [ih (o + h) hnone, List.sum_cons]
      have harith : o + h + t.sum = o + (h + t.sum) := by ring
      rw [harith]

/-- C3: for every bounded Container of height H and every sequence of
calls advance(h1), advance(h2), ...: EndOfContainer is raised exactly at
the first call at which the running sum h1 + ... + hi strictly exceeds H,
never at an earlier call, and immediately before the failing call the
cursor offset (`_flowable_offset`) equals the exact partial sum of the
preceding successful advances. -/
theorem Container.advance_first_overflow (H ch : Int) (hs : List Int) (i : Nat) :
    ((advanceSeq ⟨0, H, ch⟩ hs).2 = some i ↔
      i < hs.length ∧ H < sumTake hs (i + 1) ∧
        ∀ j < i, sumTake hs (j + 1) ≤ H) ∧
    ((advanceSeq ⟨0, H, ch⟩ hs).2 = none ↔
      ∀ j < hs.length, sumTake hs (j + 1) ≤ H) ∧
    ((advanceSeq ⟨0, H, ch⟩ hs).2 = some i →
      (advanceSeq ⟨0, H, ch⟩ (hs.take i)).2 = none ∧
      (advanceSeq ⟨0, H, ch⟩ (hs.take i)).1.offset = sumTake hs i) := by
  refine ⟨?_, ?_, ?_⟩
  · rw [advanceSeq_some_iff H ch hs 0 i]
    constructor
    · rintro ⟨h1, h2, h3⟩
      exact ⟨h1, by omega, fun j hj => by have := h3 j hj; omega⟩
    · rintro ⟨h1, h2, h3⟩
      exact ⟨h1, by omega, fun j hj => by have := h3 j hj; omega⟩
  · rw [advanceSeq_none_iff H ch hs 0]
    constructor
    · intro hall j hj; have := hall j hj; omega
    · intro hall j hj; have := hall j hj; omega
  · intro hsome
    obtain ⟨hlen, _, hall⟩ := (advanceSeq_some_iff H ch hs 0 i).mp hsome
    have hnone : (advanceSeq ⟨0, H, ch⟩ (hs.take i)).2 = none := by
      rw [advanceSeq_none_iff H ch (hs.take i) 0]
      intro j hj
      rw [List.length_take] at hj
      have hji : j < i := by omega
      have heq : sumTake (hs.take i) (j + 1) = sumTake hs (j + 1) := by
        unfold sumTake
        rw [List.take_take]
        have hmin : min (j + 1) i = j + 1 := by omega
        rw [hmin]
      rw [heq]
      have := hall j hji
      omega
    refine ⟨hnone, ?_⟩
    rw [advanceSeq_none_state H ch (hs.take i) 0 hnone]
    simp [sumTake]

/-- Witness for C3 at H = 10, advances [4, 4, 4]: the raise happens at
the third call (index 2) and the offset before it is 8. -/
theorem Container.advance_first_overflow_witness :
    (2 < ([4, 4, 4] : List Int).length ∧ (10 : Int) < sumTake [4, 4, 4] 3 ∧
      ∀ j < 2, sumTake ([4, 4, 4] : List Int) (j + 1) ≤ 10) ∧
    ((advanceSeq ⟨0, 10, 0⟩ (([4, 4, 4] : List Int).take 2)).2 = none ∧
      (advanceSeq ⟨0, 10, 0⟩ (([4, 4, 4] : List Int).take 2)).1.offset =
        sumTake [4, 4, 4] 2) :=
  ⟨(Container.advance_first_overflow 10 0 [4, 4, 4] 2).1.mp (by decide),
   (Container.advance_first_overflow 10 0 [4, 4, 4] 2).2.2 (by decide)⟩

/-- C9: a failed advance call is not rolled back: after the failing call
the offset equals the previous offset plus h, a value strictly greater
than the height, and a subsequent advance is compared against this
already-exceeded offset; `ExpandingContainer.advance` likewise keeps the
incremented offset when it raises. -/
theorem Container.advance_no_rollback (c : ContainerState) (h h2 : Int)
    (e : ExpandingContainer) :
    ((Container.advance c h).2 = true →
      (Container.advance c h).1.offset = c.offset + h ∧
      c.height < (Container.advance c h).1.offset ∧
      ((Container.advance (Container.advance c h).1 h2).2 = true ↔
        c.height < c.offset + h + h2)) ∧
    ((ExpandingContainer.advance e h).2 = true →
      (ExpandingContainer.advance e h).1.offset = e.offset + h) := by
  constructor
  · intro hr
    rw [Container.advance_snd, decide_eq_true_eq] at hr
    rw [Container.advance_fst]
    refine ⟨rfl, hr, ?_⟩
    rw [Container.advance_snd, decide_eq_true_eq]
  · intro hr
    rcases e with ⟨o, g, m, cv⟩
    cases m with
    | none => exact absurd hr (by simp [ExpandingContainer.advance, ExpandingContainer.expand])
    | some mv =>
      by_cases hm : mv < o + h
      · simp [ExpandingContainer.advance, hm]
      · exact absurd hr (by simp [ExpandingContainer.advance, ExpandingContainer.expand, hm])

theorem advanceSeqE_cons_raise (o g m ch h : Int) (t : List Int)
    (hr : m < o + h) :
    advanceSeqE ⟨o, g, some m, ch⟩ (h :: t) = (⟨o + h, g, some m, ch⟩, some 0) := by
  simp [advanceSeqE, ExpandingContainer.advance, hr]

theorem advanceSeqE_cons_ok (o g m ch h : Int) (t : List Int)
    (hr : ¬ m < o + h) :
    advanceSeqE ⟨o, g, some m, ch⟩ (h :: t) =
      ((advanceSeqE ⟨o + h, g + h, some m, ch⟩ t).1,
       (advanceSeqE ⟨o + h, g + h, some m, ch⟩ t).2.map Nat.succ) := by
  simp [advanceSeqE, ExpandingContainer.advance, ExpandingContainer.expand, hr]

theorem advanceSeqE_cons_noMax (o g ch h : Int) (t : List Int) :
    advanceSeqE ⟨o, g, none, ch⟩ (h :: t) =
      ((advanceSeqE ⟨o + h, g + h, none, ch⟩ t).1,
       (advanceSeqE ⟨o + h, g + h, none, ch⟩ t).2.map Nat.succ) := by
  simp [advanceSeqE, ExpandingContainer.advance, ExpandingContainer.expand]

theorem advanceSeqE_none_iff (M ch : Int) :
    ∀ (hs : List Int) (o g : Int),
      (advanceSeqE ⟨o, g, some M, ch⟩ hs).2 = none ↔
        ∀ j < hs.length, o + sumTake hs (j + 1) ≤ M := by
  intro hs
  induction hs with
  | nil => intro o g; simp [advanceSeqE]
  | cons h t ih =>
    intro o g
    by_cases hc : M < o + h
    · rw [advanceSeqE_cons_raise o g M ch h t hc]
      simp only [List.length_cons]
      constructor
      · intro hfalse; exact absurd hfalse (by simp)
      · intro hall
        have h0 := hall 0 (by omega)
        rw [sumTake_cons_succ, sumTake_zero] at h0
        omega
    · rw [advanceSeqE_cons_ok o g M ch h t hc]
      simp only [Option.map_eq_none', List.length_cons]
      rw [ih (o + h) (g + h)]
      constructor
      · intro hall j hj
        cases j with
        | zero =>
          rw [sumTake_cons_succ, sumTake_zero]
          omega
        | succ j1 =>
          have := hall j1 (by omega)
          rw [sumTake_cons_succ]
          omega
      · intro hall j hj
        have := hall (j + 1) (by omega)
        rw [sumTake_cons_succ] at this
        omega

theorem advanceSeqE_some_iff (M ch : Int) :
    ∀ (hs : List Int) (o g : Int) (i : Nat),
      (advanceSeqE ⟨o, g, some M, ch⟩ hs).2 = some i ↔
        i < hs.length ∧ M < o + sumTake hs (i + 1) ∧
          ∀ j < i, o + sumTake hs (j + 1) ≤ M := by
  intro hs
  induction hs with
  | nil => intro o g i; simp [advanceSeqE]
  | cons h t ih =>
    intro o g i
    by_cases hc : M < o + h
    · rw [advanceSeqE_cons_raise o g M ch h t hc]
      cases i with
      | zero =>
        simp only [List.length_cons, Option.some.injEq]
        constructor
        · intro _
          refine ⟨by omega, ?_, by omega⟩
          rw [sumTake_cons_succ, sumTake_zero]
          omega
        · intro _; trivial
      | succ i1 =>
        simp only [Option.some.injEq, List.length_cons]
        constructor
        · intro hz; omega
        · rintro ⟨_, _, hall⟩
          have h0 := hall 0 (by omega)
          rw [sumTake_cons_succ, sumTake_zero] at h0
          omega
    · rw [advanceSeqE_cons_ok o g M ch h t hc]
      simp only [List.length_cons]
      rcases hx : (advanceSeqE ⟨o + h, g + h, some M, ch⟩ t).2 with _ | k
      · simp only [hx, Option.map_none']
        constructor
        · intro hmap; exact absurd hmap (by simp)
        · rintro ⟨hlen, hlt, hall⟩
          exfalso
          have hinner := (advanceSeqE_none_iff M ch t (o + h) (g + h)).mp hx
          cases i with
          | zero =>
            rw [sumTake_cons_succ, sumTake_zero] at hlt
            omega
          | succ i1 =>
            have h2 := hinner i1 (by omega)
            rw [sumTake_cons_succ] at hlt
            omega
      · simp only [hx, Option.map_some', Option.some.injEq]
        obtain ⟨hklen, hklt, hkall⟩ := (ih (o + h) (g + h) k).mp hx
        constructor
        · intro hik
          subst hik
          refine ⟨by omega, ?_, ?_⟩
          · rw [sumTake_cons_succ]; omega
          · intro j hj
            cases j with
            | zero =>
              rw [sumTake_cons_succ, sumTake_zero]
              omega
            | succ j1 =>
              have := hkall j1 (by omega)
              rw [sumTake_cons_succ]
              omega
        · rintro ⟨hlen, hlt, hall⟩
          cases i with
          | zero =>
            exfalso
            rw [sumTake_cons_succ, sumTake_zero] at hlt
            omega
          | succ i1 =>
            have hi : (advanceSeqE ⟨o + h, g + h, some M, ch⟩ t).2 = some i1 := by
              rw [ih (o + h) (g + h) i1]
              refine ⟨by omega, ?_, ?_⟩
              · rw [sumTake_cons_succ] at hlt; omega
              · intro j hj
                have := hall (j + 1) (by omega)
                rw [sumTake_cons_succ] at this
                omega
            rw [hx] at hi
            injection hi with hi
            omega

theorem advanceSeqE_none_state (M ch : Int) :
    ∀ (hs : List Int) (o g : Int),
      (advanceSeqE ⟨o, g, some M, ch⟩ hs).2 = none →
        (advanceSeqE ⟨o, g, some M, ch⟩ hs).1 = ⟨o + hs.sum, g + hs.sum, some M, ch⟩ := by
  intro hs
  induction hs with
  | nil => intro o g _; simp [advanceSeqE]
  | cons h t ih =>
    intro o g hnone
    by_cases hc : M < o + h
    · rw [advanceSeqE_cons_raise o g M ch h t hc] at hnone
      exact absurd hnone (by simp)
    · rw [advanceSeqE_cons_ok o g M ch h t hc] at hnone ⊢
      simp only [Option.map_eq_none'] at hnone
      rw [ih (o + h) (g + h) hnone, List.sum_cons]
      have h1 : o + h + t.sum = o + (h + t.sum) := by ring
      have h2 : g + h + t.sum = g + (h + t.sum) := by ring
      rw [h1, h2]

theorem advanceSeqE_noMax_state (ch : Int) :
    ∀ (hs : List Int) (o g : Int),
      advanceSeqE ⟨o, g, none, ch⟩ hs = (⟨o + hs.sum, g + hs.sum, none, ch⟩, none) := by
  intro hs
  induction hs with
  | nil => intro o g; simp [advanceSeqE]
  | cons h t ih =>
    intro o g
    rw [advanceSeqE_cons_noMax o g ch h t, ih (o + h) (g + h), List.sum_cons]
    have h1 : o + h + t.sum = o + (h + t.sum) := by ring
    have h2 : g + h + t.sum = g + (h + t.sum) := by ring
    rw [h1, h2]
    rfl

/-- C4: for an ExpandingContainer with cap M (created with offset 0 and
height 0), a sequence of advances grows the height to exactly the
cumulative advanced amount as long as that amount stays at most M, and
EndOfContainer is raised exactly at the first call at which the
cumulative amount exceeds M; with no max_height configured, advance never
raises and the height always equals the cumulative amount. -/
theorem ExpandingContainer.advance_spec (M ch : Int) (hs : List Int) (i : Nat) :
    ((advanceSeqE ⟨0, 0, some M, ch⟩ hs).2 = none ↔
      ∀ j < hs.length, sumTake hs (j + 1) ≤ M) ∧
    ((advanceSeqE ⟨0, 0, some M, ch⟩ hs).2 = none →
      (advanceSeqE ⟨0, 0, some M, ch⟩ hs).1.height = hs.sum ∧
      (advanceSeqE ⟨0, 0, some M, ch⟩ hs).1.offset = hs.sum) ∧
    ((advanceSeqE ⟨0, 0, some M, ch⟩ hs).2 = some i ↔
      i < hs.length ∧ M < sumTake hs (i + 1) ∧
        ∀ j < i, sumTake hs (j + 1) ≤ M) ∧
    ((advanceSeqE ⟨0, 0, none, ch⟩ hs).2 = none ∧
      (advanceSeqE ⟨0, 0, none, ch⟩ hs).1.height = hs.sum) := by
  refine ⟨?_, ?_, ?_, ?_⟩
  · rw [advanceSeqE_none_iff M ch hs 0 0]
    constructor
    · intro hall j hj; have := hall j hj; omega
    · intro hall j hj; have := hall j hj; omega
  · intro hnone
    rw [advanceSeqE_none_state M ch hs 0 0 hnone]
    constructor
    · show (0 : Int) + hs.sum = hs.sum
      ring
    · show (0 : Int) + hs.sum = hs.sum
      ring
  · rw [advanceSeqE_some_iff M ch hs 0 0 i]
    constructor
    · rintro ⟨h1, h2, h3⟩
      exact ⟨h1, by omega, fun j hj => by have := h3 j hj; omega⟩
    · rintro ⟨h1, h2, h3⟩
      exact ⟨h1, by omega, fun j hj => by have := h3 j hj; omega⟩
  · rw [advanceSeqE_noMax_state ch hs 0 0]
    constructor
    · rfl
    · show (0 : Int) + hs.sum = hs.sum
      ring

/-- Witness for C4 at M = 10: advances [4, 4] stay within the cap and
grow the height to 8; advances [4, 4, 4] raise at the third call; with no
cap, [4, 4, 4] never raises and the height reaches 12. -/
theorem ExpandingContainer.advance_spec_witness :
    ((advanceSeqE ⟨0, 0, some 10, 0⟩ [4, 4]).1.height = ([4, 4] : List Int).sum ∧
      (advanceSeqE ⟨0, 0, some 10, 0⟩ [4, 4]).1.offset = ([4, 4] : List Int).sum) ∧
    (2 < ([4, 4, 4] : List Int).length ∧ (10 : Int) < sumTake [4, 4, 4] 3 ∧
      ∀ j < 2, sumTake ([4, 4, 4] : List Int) (j + 1) ≤ 10) ∧
    ((advanceSeqE ⟨0, 0, none, 0⟩ [4, 4, 4]).2 = none ∧
      (advanceSeqE ⟨0, 0, none, 0⟩ [4, 4, 4]).1.height = ([4, 4, 4] : List Int).sum) :=
  ⟨(ExpandingContainer.advance_spec 10 0 [4, 4] 0).2.1 (by decide),
   (ExpandingContainer.advance_spec 10 0 [4, 4, 4] 2).2.2.1.mp (by decide),
   (ExpandingContainer.advance_spec 10 0 [4, 4, 4] 2).2.2.2⟩

/-- Witness for C9: height 3, offset 0, advance 5 raises; offset becomes
5 and a further advance of -1 still raises since 4 exceeds 3. -/
theorem Container.advance_no_rollback_witness :
    ((Container.advance ⟨0, 3, 0⟩ 5).1.offset = 0 + 5 ∧
      (3 : Int) < (Container.advance ⟨0, 3, 0⟩ 5).1.offset ∧
      ((Container.advance (Container.advance ⟨0, 3, 0⟩ 5).1 (-1)).2 = true ↔
        (3 : Int) < 0 + 5 + -1)) ∧
    (ExpandingContainer.advance ⟨0, 0, some 3, 0⟩ 5).1.offset = 0 + 5 :=
  ⟨(Container.advance_no_rollback ⟨0, 3, 0⟩ 5 (-1) ⟨0, 0, some 3, 0⟩).1 (by decide),
   (Container.advance_no_rollback ⟨0, 3, 0⟩ 5 (-1) ⟨0, 0, some 3, 0⟩).2 (by decide)⟩

/-! Lemmas about `Flowable.flow`. -/

theorem renderContent_canvasHeight (fs : List Int) :
    ∀ c : ContainerState, (renderContent c fs).1.canvasHeight = c.canvasHeight := by
  induction fs with
  | nil => intro c; rfl
  | cons h t ih =>
    intro c
    rcases hb : (Container.advance c h).2
    · simp only [renderContent, hb, Bool.false_eq_true, if_false]
      rw [ih, Container.advance_fst]
    · simp only [renderContent, hb, if_true]
      rw [Container.advance_fst]

theorem Container.advance_canvasHeight (c : ContainerState) (h : Int) :
    (Container.advance c h).1.canvasHeight = c.canvasHeight := by
  rw [Container.advance_fst]

theorem flowTail_ignores_space_above (g : Flowable) (s c : ContainerState) (a : Int) :
    (flowTail g s c).2 = (flowTail { g with space_above := a } s c).2 := by
  by_cases hrc : (renderContent c g.content).2 = true <;> simp [flowTail, hrc]

theorem flowTail_start_shift (g : Flowable) (s s2 c : ContainerState) :
    (flowTail g s c).2.1 = (flowTail g s2 c).2.1 ∧
    (flowTail g s c).2.2 =
      ((flowTail g s2 c).2.2).map (fun v => v + (s2.cursor - s.cursor)) := by
  by_cases hrc : (renderContent c g.content).2 = true
  · simp [flowTail, hrc]
  · refine ⟨by simp [flowTail, hrc], ?_⟩
    simp only [flowTail, hrc, Bool.false_eq_true, if_false, Option.map_some',
      Option.some.injEq]
    ring

theorem flowTail_value (g : Flowable) (s c : ContainerState) (v : Int)
    (hcv : c.canvasHeight = s.canvasHeight)
    (hv : (flowTail g s c).2.2 = some v) :
    v = s.offset - (flowTail g s c).2.1.offset := by
  by_cases hrc : (renderContent c g.content).2 = true
  · simp [flowTail, hrc] at hv
  · simp only [flowTail, hrc, Bool.false_eq_true, if_false,
      Option.some.injEq] at hv ⊢
    have h1 : (Container.advance (renderContent c g.content).1 g.space_below).1.canvasHeight =
        c.canvasHeight := by
      rw [Container.advance_canvasHeight, renderContent_canvasHeight]
    simp only [ContainerState.cursor] at hv
    omega

theorem flow_resume_eq (g : Flowable) (c : ContainerState) (hg : g.resume = true) :
    Flowable.flow g c = flowTail g c c := by
  simp [Flowable.flow, hg]

theorem flow_fresh_raise_eq (f : Flowable) (c : ContainerState)
    (hf : f.resume = false) (hr : (Container.advance c f.space_above).2 = true) :
    Flowable.flow f c =
      ({ f with resume := true }, (Container.advance c f.space_above).1, none) := by
  simp [Flowable.flow, hf, hr]

theorem flow_fresh_ok_eq (f : Flowable) (c : ContainerState)
    (hf : f.resume = false) (hr : (Container.advance c f.space_above).2 = false) :
    Flowable.flow f c =
      flowTail { f with resume := true } c (Container.advance c f.space_above).1 := by
  simp [Flowable.flow, hf, hr]

/-- A flowable whose `resume` flag is set skips the `space_above` advance
entirely: the rendered result does not depend on `space_above`. -/
theorem flow_resumed_ignores_space_above (g : Flowable) (c : ContainerState)
    (hg : g.resume = true) (a : Int) :
    (Flowable.flow g c).2 = (Flowable.flow { g with space_above := a } c).2 := by
  rw [flow_resume_eq g c hg, flow_resume_eq { g with space_above := a } c (by simp [hg])]
  exact flowTail_ignores_space_above g c c a

/-- C8: if the resume flag is true when flow is called, the cursor is not
advanced by space_above (the outcome does not depend on space_above at
all); if it is false, the cursor is advanced by space_above before the
content is rendered: either that advance raises and flow stops there, or
flow continues exactly as a resumed flow from the advanced container,
the returned value accounting for the space_above consumed. -/
theorem Flowable.flow_space_above (f : Flowable) (c : ContainerState) :
    (f.resume = true → ∀ a : Int,
      (Flowable.flow f c).2 = (Flowable.flow { f with space_above := a } c).2) ∧
    (f.resume = false → (Container.advance c f.space_above).2 = true →
      (Flowable.flow f c).2 = ((Container.advance c f.space_above).1, none)) ∧
    (f.resume = false → (Container.advance c f.space_above).2 = false →
      (Flowable.flow f c).2.1 =
        (Flowable.flow { f with resume := true }
          (Container.advance c f.space_above).1).2.1 ∧
      (Flowable.flow f c).2.2 =
        ((Flowable.flow { f with resume := true }
          (Container.advance c f.space_above).1).2.2).map
            (fun v => v - f.space_above)) := by
  refine ⟨?_, ?_, ?_⟩
  · intro hf a
    exact flow_resumed_ignores_space_above f c hf a
  · intro hf hr
    rw [flow_fresh_raise_eq f c hf hr]
  · intro hf hr
    rw [flow_fresh_ok_eq f c hf hr,
      flow_resume_eq { f with resume := true }
        (Container.advance c f.space_above).1 (by simp)]
    have hshift := flowTail_start_shift { f with resume := true } c
      (Container.advance c f.space_above).1 (Container.advance c f.space_above).1
    refine ⟨hshift.1, ?_⟩
    rw [hshift.2]
    have hcur : (Container.advance c f.space_above).1.cursor - c.cursor =
        - f.space_above := by
      rw [Container.advance_fst]
      simp only [ContainerState.cursor]
      ring
    simp only [hcur, sub_eq_add_neg]

/-- Witness for C8: a resumed flowable ignores space_above; a fresh one
advances by it first (raising in a height-1 container, succeeding in a
height-100 one). -/
theorem Flowable.flow_space_above_witness :
    (Flowable.flow ⟨2, 1, [3], true⟩ ⟨0, 100, 50⟩).2 =
      (Flowable.flow ⟨7, 1, [3], true⟩ ⟨0, 100, 50⟩).2 ∧
    (Flowable.flow ⟨2, 1, [3], false⟩ ⟨0, 1, 50⟩).2 =
      ((Container.advance ⟨0, 1, 50⟩ (2 : Int)).1, none) ∧
    (Flowable.flow ⟨2, 1, [3], false⟩ ⟨0, 100, 50⟩).2.2 =
      ((Flowable.flow ⟨2, 1, [3], true⟩
        (Container.advance ⟨0, 100, 50⟩ (2 : Int)).1).2.2).map
          (fun v => v - 2) :=
  ⟨(Flowable.flow_space_above ⟨2, 1, [3], true⟩ ⟨0, 100, 50⟩).1 rfl 7,
   (Flowable.flow_space_above ⟨2, 1, [3], false⟩ ⟨0, 1, 50⟩).2.1 rfl (by decide),
   ((Flowable.flow_space_above ⟨2, 1, [3], false⟩ ⟨0, 100, 50⟩).2.2 rfl (by decide)).2⟩

/-- C10: a fresh flowable whose space_above advance itself raises has
already set resume = true before the advance, so the raise leaves the
flag set and a retry of the same flowable on another Geometry skips
space_above (its value no longer affects the outcome). -/
theorem Flowable.flow_resume_set_before (f : Flowable) (c c2 : ContainerState) :
    f.resume = false → (Container.advance c f.space_above).2 = true →
      (Flowable.flow f c).1.resume = true ∧
      (Flowable.flow f c).2.2 = none ∧
      (∀ a : Int, (Flowable.flow (Flowable.flow f c).1 c2).2 =
        (Flowable.flow { (Flowable.flow f c).1 with space_above := a } c2).2) := by
  intro hf hr
  rw [flow_fresh_raise_eq f c hf hr]
  refine ⟨rfl, rfl, ?_⟩
  intro a
  exact flow_resumed_ignores_space_above _ c2 (by simp) a

/-- Witness for C10: space_above 5 in a height-3 container raises; the
flowable comes back with resume set and its retry ignores space_above. -/
theorem Flowable.flow_resume_set_before_witness :
    (Flowable.flow ⟨5, 1, [2], false⟩ ⟨0, 3, 50⟩).1.resume = true ∧
    (Flowable.flow ⟨5, 1, [2], false⟩ ⟨0, 3, 50⟩).2.2 = none ∧
    (∀ a : Int,
      (Flowable.flow (Flowable.flow ⟨5, 1, [2], false⟩ ⟨0, 3, 50⟩).1 ⟨0, 100, 50⟩).2 =
      (Flowable.flow
        { (Flowable.flow ⟨5, 1, [2], false⟩ ⟨0, 3, 50⟩).1 with space_above := a }
        ⟨0, 100, 50⟩).2) :=
  Flowable.flow_resume_set_before ⟨5, 1, [2], false⟩ ⟨0, 3, 50⟩ ⟨0, 100, 50⟩
    rfl (by decide)

/-- C5 (code bug): `Flowable.flow` is documented as returning the
vertical space consumed, a non-negative quantity, but it computes
`container.cursor - start_offset` with the cursor decreasing as space is
consumed: on the concrete input it returns -6 where 6 units were
consumed, and in general the returned value is the negation of the
offset the flow added (start offset minus final offset). -/
theorem Flowable.flow_sign :
    (Flowable.flow ⟨2, 1, [3], false⟩ ⟨0, 100, 50⟩).2.2 = some (-6) ∧
    (∀ (f : Flowable) (c : ContainerState) (v : Int),
      (Flowable.flow f c).2.2 = some v →
      v = c.offset - (Flowable.flow f c).2.1.offset) := by
  constructor
  · decide
  · intro f c v hv
    rcases hf : f.resume
    · rcases hr : (Container.advance c f.space_above).2
      · rw [flow_fresh_ok_eq f c hf hr] at hv ⊢
        exact flowTail_value _ c _ v
          (Container.advance_canvasHeight c f.space_above) hv
      · rw [flow_fresh_raise_eq f c hf hr] at hv
        exact absurd hv (by simp)
    · rw [flow_resume_eq f c hf] at hv ⊢
      exact flowTail_value f c c v rfl hv

/-- Witness for C5 at the concrete input: the returned value -6 equals
the start offset 0 minus the final offset 6. -/
theorem Flowable.flow_sign_witness :
    (-6 : Int) =
      (0 : Int) - (Flowable.flow ⟨2, 1, [3], false⟩ ⟨0, 100, 50⟩).2.1.offset :=
  Flowable.flow_sign.2 ⟨2, 1, [3], false⟩ ⟨0, 100, 50⟩ (-6) (by decide)

/-! Lemmas about `Chain.render`. -/

theorem flowMany_not_raised_nil :
    ∀ (fs : List Flowable) (c : ContainerState),
      (flowMany c fs).2.2 = false → (flowMany c fs).2.1 = [] := by
  intro fs
  induction fs with
  | nil => intro c _; rfl
  | cons f rest ih =>
    intro c hraised
    rcases hx : (Flowable.flow f c).2.2 with _ | v
    · simp only [flowMany, hx] at hraised
      exact absurd hraised (by simp)
    · simp only [flowMany, hx] at hraised ⊢
      exact ih (Flowable.flow f c).2.1 hraised

theorem flowMany_raised_ne_nil :
    ∀ (fs : List Flowable) (c : ContainerState),
      (flowMany c fs).2.2 = true → (flowMany c fs).2.1 ≠ [] := by
  intro fs
  induction fs with
  | nil => intro c habs; exact absurd habs (by simp [flowMany])
  | cons f rest ih =>
    intro c hraised
    rcases hx : (Flowable.flow f c).2.2 with _ | v
    · simp only [flowMany, hx]
      exact List.cons_ne_nil _ _
    · simp only [flowMany, hx] at hraised ⊢
      exact ih (Flowable.flow f c).2.1 hraised

theorem chainRender_fst :
    ∀ (cs : List ContainerState) (fs : List Flowable),
      (Chain.render fs cs).1 = chainConsume fs cs := by
  intro cs
  induction cs with
  | nil => intro fs; rfl
  | cons c rest ih =>
    intro fs
    rcases hm : (flowMany c fs).2.2 with _ | _
    · simp only [Chain.render, chainConsume, hm, Bool.false_eq_true, if_false]
      exact ih _
    · cases rest with
      | nil => simp [Chain.render, chainConsume, hm]
      | cons c2 rest2 =>
        simp only [Chain.render, chainConsume, hm, if_true, List.isEmpty_cons,
          Bool.false_eq_true, if_false]
        exact ih _

theorem chainConsume_append :
    ∀ (xs ys : List ContainerState) (fs : List Flowable),
      chainConsume fs (xs ++ ys) = chainConsume (chainConsume fs xs) ys := by
  intro xs
  induction xs with
  | nil => intro ys fs; rfl
  | cons c rest ih =>
    intro ys fs
    simp only [List.cons_append, chainConsume]
    exact ih ys _

theorem chainRender_snd_last :
    ∀ (init : List ContainerState) (lastC : ContainerState) (fs : List Flowable),
      (Chain.render fs (init ++ [lastC])).2 =
        (flowMany lastC (chainConsume fs init)).2.2 := by
  intro init
  induction init with
  | nil =>
    intro lastC fs
    rcases hm : (flowMany lastC fs).2.2 with _ | _
    · simp [Chain.render, chainConsume, hm]
    · simp [Chain.render, chainConsume, hm]
  | cons c rest ih =>
    intro lastC fs
    have hne : rest ++ [lastC] ≠ [] := by simp
    rcases hm : (flowMany c fs).2.2 with _ | _
    · simp only [List.cons_append, Chain.render, hm, Bool.false_eq_true, if_false,
        chainConsume]
      exact ih lastC _
    · simp only [List.cons_append, Chain.render, hm, if_true, chainConsume]
      rw [List.isEmpty_eq_false_iff_exists_mem.mpr ⟨lastC, by simp⟩]
      simp only [Bool.false_eq_true, if_false]
      exact ih lastC _

/-- C1: Chain.render raises EndOfPage (carrying the chain) if and only
if a flow raises EndOfContainer while the current container is the last
one of the chain; when it does, unconsumed flowables remain; and when
every flowable is consumed by or before the last container, render
returns normally with no signal. -/
theorem Chain.render_end_of_page (fs : List Flowable) (init : List ContainerState)
    (lastC : ContainerState) :
    ((Chain.render fs (init ++ [lastC])).2 = true ↔
      (flowMany lastC (chainConsume fs init)).2.2 = true) ∧
    ((Chain.render fs (init ++ [lastC])).2 = true →
      (Chain.render fs (init ++ [lastC])).1 ≠ []) ∧
    (chainConsume fs (init ++ [lastC]) = [] →
      (Chain.render fs (init ++ [lastC])).2 = false) := by
  refine ⟨?_, ?_, ?_⟩
  · rw [chainRender_snd_last init lastC fs]
  · intro hr
    rw [chainRender_snd_last init lastC fs] at hr
    rw [chainRender_fst, chainConsume_append]
    simp only [chainConsume]
    exact flowMany_raised_ne_nil _ lastC hr
  · intro hempty
    rcases hb : (Chain.render fs (init ++ [lastC])).2 with _ | _
    · rfl
    · exfalso
      rw [chainRender_snd_last init lastC fs] at hb
      have := flowMany_raised_ne_nil _ lastC hb
      rw [chainConsume_append] at hempty
      simp only [chainConsume] at hempty
      exact this hempty

/-- Witness for C1: a single container of height 1 cannot hold a
flowable of content height 5, so EndOfPage is raised with the flowable
unconsumed; a flowable of content height 2 fits, so the same chain
returns normally. -/
theorem Chain.render_end_of_page_witness :
    (Chain.render [⟨0, 0, [5], false⟩] ([] ++ [⟨0, 1, 10⟩])).1 ≠ [] ∧
    (Chain.render [⟨0, 0, [2], false⟩] ([] ++ [⟨0, 100, 10⟩])).2 = false :=
  ⟨(Chain.render_end_of_page [⟨0, 0, [5], false⟩] [] ⟨0, 1, 10⟩).2.1 (by decide),
   (Chain.render_end_of_page [⟨0, 0, [2], false⟩] [] ⟨0, 100, 10⟩).2.2 (by decide)⟩

/-! Lemmas about the `Document.render` convergence loop. -/

theorem renderPasses_inc_none :
    ∀ (fuel i : Nat) (pp : Int) (pr : RefMap), pp ≠ Int.ofNat (i + 1) →
      renderPasses (fun n => (n + 1, [])) pp pr i fuel = none := by
  intro fuel
  induction fuel with
  | zero => intro i pp pr _; rfl
  | succ fuel ih =>
    intro i pp pr hne
    have hconv : has_converged (Int.ofNat (i + 1)) [] pp pr = false := by
      simp only [has_converged, decide_eq_false_iff_not]
      intro hand
      exact hne hand.1.symm
    simp only [renderPasses, hconv, Bool.false_eq_true, if_false]
    exact ih (i + 1) (Int.ofNat (i + 1)) [] (by simp)

theorem renderPasses_some_conv (passFn : Nat → Nat × RefMap) :
    ∀ (fuel i : Nat) (pp : Int) (pr : RefMap) (n : Nat),
      renderPasses passFn pp pr i fuel = some n →
      (n = i + 1 ∧ Int.ofNat (passFn i).1 = pp ∧ (passFn i).2 = pr) ∨
      (i + 2 ≤ n ∧ (passFn (n - 1)).1 = (passFn (n - 2)).1 ∧
        (passFn (n - 1)).2 = (passFn (n - 2)).2) := by
  intro fuel
  induction fuel with
  | zero => intro i pp pr n habs; exact absurd habs (by simp [renderPasses])
  | succ fuel ih =>
    intro i pp pr n hsome
    rcases hconv : has_converged (Int.ofNat (passFn i).1) (passFn i).2 pp pr with _ | _
    · simp only [renderPasses, hconv, Bool.false_eq_true, if_false] at hsome
      rcases ih (i + 1) (Int.ofNat (passFn i).1) (passFn i).2 n hsome with
        ⟨hn, hp, hrr⟩ | ⟨hn, hp, hrr⟩
      · right
        refine ⟨by omega, ?_, ?_⟩
        · have h1 : n - 1 = i + 1 := by omega
          have h2 : n - 2 = i := by omega
          rw [h1, h2]
          exact Int.ofNat.inj hp
        · have h1 : n - 1 = i + 1 := by omega
          have h2 : n - 2 = i := by omega
          rw [h1, h2]
          exact hrr
      · right
        exact ⟨by omega, hp, hrr⟩
    · simp only [renderPasses, hconv, if_true, Option.some.injEq] at hsome
      left
      have := (decide_eq_true_eq.mp hconv)
      exact ⟨hsome.symm, this.1, this.2⟩

/-- C2 amended: Document.render repeats pagination passes with no
iteration cap and no fatal-error path: on input whose page count grows
every pass it is still looping after any number of passes (no diagnostic
is ever produced), an input stabilizing only at the 16th pass completes
normally after 16 passes, and whenever the loop does return, its final
pass reproduced the previous pass's page count and reference map. -/
theorem Document.render_uncapped :
    (∀ fuel : Nat, Document.render (fun n => (n + 1, [])) none fuel = none) ∧
    Document.render (fun n => (min (n + 1) 15, ([] : RefMap))) none 100 = some 16 ∧
    (∀ (passFn : Nat → Nat × RefMap) (fuel n : Nat),
      Document.render passFn none fuel = some n →
      2 ≤ n ∧ (passFn (n - 1)).1 = (passFn (n - 2)).1 ∧
        (passFn (n - 1)).2 = (passFn (n - 2)).2) := by
  refine ⟨?_, ?_, ?_⟩
  · intro fuel
    exact renderPasses_inc_none fuel 0 (-1) [] (by decide)
  · decide
  · intro passFn fuel n hsome
    rcases renderPasses_some_conv passFn fuel 0 (-1) [] n hsome with
      ⟨_, hp, _⟩ | ⟨hn, hp, hrr⟩
    · exfalso
      have h0 : (0 : Int) ≤ Int.ofNat (passFn 0).1 := Int.ofNat_nonneg _
      omega
    · exact ⟨by omega, hp, hrr⟩

/-- Witness for C2 (amended theorem): applying the characterization to
the pass sequence stabilizing at page count 15 and fuel 100 yields n =
16 with the 16th pass equal to the 15th. -/
theorem Document.render_uncapped_witness :
    2 ≤ 16 ∧
    ((fun n => (min (n + 1) 15, ([] : RefMap))) (16 - 1)).1 =
      ((fun n => (min (n + 1) 15, ([] : RefMap))) (16 - 2)).1 ∧
    ((fun n => (min (n + 1) 15, ([] : RefMap))) (16 - 1)).2 =
      ((fun n => (min (n + 1) 15, ([] : RefMap))) (16 - 2)).2 :=
  Document.render_uncapped.2.2 (fun n => (min (n + 1) 15, [])) 100 16 (by decide)

/-- C2 counterexample: the claim demands at most a bounded number of
passes (default cap 10) with a fatal error past the cap; but the loop in
document.py has no cap: a run stabilizing only at the 16th pass performs
all 16 passes and returns normally, and a run whose page count grows
every pass is still looping after 50 passes, no fatal error either
way. -/
theorem Document.render_cap_cex :
    Document.render (fun n => (min (n + 1) 15, ([] : RefMap))) none 100 = some 16 ∧
    Document.render (fun n => (n + 1, ([] : RefMap))) none 50 = none ∧
    10 < 16 :=
  ⟨by decide, by decide, by decide⟩

/-! Lemmas about `ContainerBase.render`. -/

theorem RTreeList.induct (P : RTreeList → Prop) (hnil : P RTreeList.nil)
    (hcons : ∀ t rest, P rest → P (RTreeList.cons t rest)) :
    ∀ l, P l
  | RTreeList.nil => hnil
  | RTreeList.cons t rest => hcons t rest (RTreeList.induct P hnil hcons rest)

theorem renderChildren_no_eoc :
    ∀ kids : RTreeList, childrenNoEoc kids = true →
      ContainerBase.renderChildren kids =
        (kids.length, false, childrenAnyEop kids) := by
  refine RTreeList.induct _ ?_ ?_
  · intro _; rfl
  · intro t rest ih hno
    simp only [childrenNoEoc, Bool.and_eq_true, decide_eq_true_eq] at hno
    obtain ⟨hne, hrest⟩ := hno
    simp only [ContainerBase.renderChildren, if_neg hne, ih hrest,
      RTreeList.length, childrenAnyEop]
    rw [Bool.or_comm]

theorem renderChildren_short (bad : RTree) (post : RTreeList)
    (hbad : (ContainerBase.render bad).1 = Outcome.eoc) :
    ∀ pre : RTreeList, childrenNoEoc pre = true →
      (ContainerBase.renderChildren (pre.append (RTreeList.cons bad post))).1 =
        pre.length + 1 ∧
      (ContainerBase.renderChildren (pre.append (RTreeList.cons bad post))).2.1 =
        true := by
  refine RTreeList.induct _ ?_ ?_
  · intro _
    simp [RTreeList.append, ContainerBase.renderChildren, if_pos hbad,
      RTreeList.length]
  · intro t rest ih hno
    simp only [childrenNoEoc, Bool.and_eq_true, decide_eq_true_eq] at hno
    obtain ⟨hne, hrest⟩ := hno
    have ihr := ih hrest
    simp only [RTreeList.append, ContainerBase.renderChildren, if_neg hne,
      RTreeList.length]
    exact ⟨by rw [ihr.1], ihr.2⟩

theorem render_node_attempted (c : ContainerState) (fls : List Flowable)
    (chain : Option (List Flowable × List ContainerState)) (kids : RTreeList) :
    (ContainerBase.render (RTree.node c fls chain kids)).2 =
      (ContainerBase.renderChildren kids).1 := by
  simp only [ContainerBase.render]
  repeat' split
  all_goals rfl

/-- C6 amended: the children loop of render() collects only the
EndOfPage signal: when no child raises a plain EndOfContainer, every
child is attempted, and a collected EndOfPage is re-signaled after all
children (here for a node with no own flowables and no chain); but a
child that raises plain EndOfContainer short-circuits the loop: only the
children up to and including it are attempted and EndOfContainer
propagates immediately. -/
theorem ContainerBase.render_signals (c : ContainerState) (fls : List Flowable)
    (chain : Option (List Flowable × List ContainerState))
    (kids pre post : RTreeList) (bad : RTree) :
    (childrenNoEoc kids = true →
      (ContainerBase.render (RTree.node c fls chain kids)).2 = kids.length) ∧
    (childrenNoEoc kids = true → childrenAnyEop kids = true →
      fls = [] → chain = none →
      ContainerBase.render (RTree.node c fls chain kids) =
        (Outcome.eop, kids.length)) ∧
    (childrenNoEoc pre = true → (ContainerBase.render bad).1 = Outcome.eoc →
      (ContainerBase.render (RTree.node c fls chain
        (pre.append (RTreeList.cons bad post)))).1 = Outcome.eoc ∧
      (ContainerBase.render (RTree.node c fls chain
        (pre.append (RTreeList.cons bad post)))).2 = pre.length + 1) := by
  refine ⟨?_, ?_, ?_⟩
  · intro hno
    rw [render_node_attempted, renderChildren_no_eoc kids hno]
  · intro hno heop hfl hch
    subst hfl
    subst hch
    simp only [ContainerBase.render, renderChildren_no_eoc kids hno]
    simp [heop]
  · intro hpre hbad
    have hsc := renderChildren_short bad post hbad pre hpre
    constructor
    · simp only [ContainerBase.render, hsc.2, if_true]
    · rw [render_node_attempted]
      exact hsc.1

/-- A child whose own flowable overflows its height-1 geometry: its
render raises a plain EndOfContainer. -/
def C6bad : RTree := RTree.node ⟨0, 1, 10⟩ [⟨0, 0, [5], false⟩] none RTreeList.nil

/-- A child that renders with no signal. -/
def C6good : RTree := RTree.node ⟨0, 100, 10⟩ [] none RTreeList.nil

/-- A child bound to a chain whose single (hence last) container
overflows: its render raises EndOfPage. -/
def C6eop : RTree := RTree.node ⟨0, 100, 10⟩ []
  (some ([⟨0, 0, [5], false⟩], [⟨0, 1, 10⟩])) RTreeList.nil

/-- The concrete child list for the C6 witness. -/
def C6kids : RTreeList := RTreeList.cons C6eop (RTreeList.cons C6good RTreeList.nil)

/-- C6 counterexample: with two children whose first raises a plain
EndOfContainer (its own flowable overflows), render attempts only 1 of
the 2 children and propagates EndOfContainer at once, instead of
attempting every child and re-signaling afterwards as the claim
states. -/
theorem ContainerBase.render_short_circuit_cex :
    ContainerBase.render (RTree.node ⟨0, 100, 100⟩ [] none
      (RTreeList.cons C6bad (RTreeList.cons C6good RTreeList.nil))) =
      (Outcome.eoc, 1) ∧
    (RTreeList.cons C6bad (RTreeList.cons C6good RTreeList.nil)).length = 2 :=
  ⟨rfl, rfl⟩

/-- Witness for C6 (amended theorem): an EndOfPage child plus a quiet
child: both attempted, EndOfPage re-signaled at the end; a single
EndOfContainer child: the loop stops at it. -/
theorem ContainerBase.render_signals_witness :
    (ContainerBase.render (RTree.node ⟨0, 100, 100⟩ [] none C6kids)).2 =
      C6kids.length ∧
    ContainerBase.render (RTree.node ⟨0, 100, 100⟩ [] none C6kids) =
      (Outcome.eop, C6kids.length) ∧
    ((ContainerBase.render (RTree.node ⟨0, 100, 100⟩ [] none
        (RTreeList.nil.append (RTreeList.cons C6bad RTreeList.nil)))).1 =
      Outcome.eoc ∧
      (ContainerBase.render (RTree.node ⟨0, 100, 100⟩ [] none
        (RTreeList.nil.append (RTreeList.cons C6bad RTreeList.nil)))).2 =
      RTreeList.nil.length + 1) :=
  ⟨(ContainerBase.render_signals ⟨0, 100, 100⟩ [] none C6kids
      RTreeList.nil RTreeList.nil C6bad).1 (by decide),
   (ContainerBase.render_signals ⟨0, 100, 100⟩ [] none C6kids
      RTreeList.nil RTreeList.nil C6bad).2.1 (by decide) (by decide) rfl rfl,
   (ContainerBase.render_signals ⟨0, 100, 100⟩ [] none C6kids
      RTreeList.nil RTreeList.nil C6bad).2.2 (by decide) (by decide)⟩

/-- C7 counterexample: constructing a Container with every one of left,
width, right, top, height, bottom omitted (a subset the claim calls
insufficient, so construction should fail with a Configuration error)
does not fail: there is no Configuration-error path anywhere in the
constructor, and the values are silently defaulted to fill the parent
(left 0, width 100, top 0, height 200 for a 100 by 200 parent). -/
theorem Container.init_no_config_error_cex :
    Container.init 100 200 none none none none none none =
      ((0, 100, 100), (0, 200, 200)) := rfl

/-- C7 amended: construction never fails and accepts every subset:
a missing left defaults to 0, except that right - width is used when
both right and width are given; a missing width defaults to
parent width - left, or to right - left when right is given; right is
always recomputed as left + width, silently overriding any supplied
right, so contradictory triples are accepted too; and symmetrically for
top, height, bottom, so right = left + width and bottom = top + height
hold for every input. -/
theorem Container.init_resolution (pw ph : Int)
    (left width right top height bottom : Option Int) :
    ((Container.init pw ph left width right top height bottom).1.2.2 =
      (Container.init pw ph left width right top height bottom).1.1 +
      (Container.init pw ph left width right top height bottom).1.2.1 ∧
     (Container.init pw ph left width right top height bottom).2.2.2 =
      (Container.init pw ph left width right top height bottom).2.1 +
      (Container.init pw ph left width right top height bottom).2.2.1) ∧
    (∀ l w r : Int, r ≠ l + w →
      resolveAxis pw (some l) (some w) (some r) = (l, w, l + w)) ∧
    (∀ l w : Int, resolveAxis pw (some l) (some w) none = (l, w, l + w)) ∧
    (∀ w r : Int, resolveAxis pw none (some w) (some r) = (r - w, w, r)) ∧
    (∀ l r : Int, resolveAxis pw (some l) none (some r) = (l, r - l, r)) ∧
    (∀ l : Int, resolveAxis pw (some l) none none = (l, pw - l, pw)) ∧
    (∀ w : Int, resolveAxis pw none (some w) none = (0, w, w)) ∧
    (∀ r : Int, resolveAxis pw none none (some r) = (0, r, r)) ∧
    resolveAxis pw none none none = (0, pw, pw) := by
  refine ⟨⟨rfl, rfl⟩, ?_, ?_, ?_, ?_, ?_, ?_, ?_, ?_⟩
  · intro l w r _
    rfl
  · intro l w
    rfl
  · intro w r
    simp [resolveAxis]
  · intro l r
    simp [resolveAxis]
  · intro l
    simp [resolveAxis]
  · intro w
    simp [resolveAxis]
  · intro r
    simp [resolveAxis]
  · simp [resolveAxis]

/-- Witness for C7 (amended theorem): a contradictory triple left 1,
width 2, right 100 is accepted and right is silently recomputed as 3. -/
theorem Container.init_resolution_witness :
    resolveAxis (100 : Int) (some 1) (some 2) (some 100) = (1, 2, 1 + 2) :=
  (Container.init_resolution 100 200 none none none none none none).2.1
    1 2 100 (by decide)
